import Mathlib

/-!
Verification of the monkey-business library (src/index.ts): a shallow
embedding of its array helpers, map helpers and lazy iterator adapters,
together with proofs of the specified properties.

Modelling conventions:
- A JS array is a dense `List α` (indices 0..length-1 all assigned).
- A JS number used as an index is a `JsNum`: either an integer value or a
  non-integer (only integrality and the integer value affect behaviour).
- Thrown exceptions are modelled with `Except JsError`.
- A JS value that may be `undefined` or `null` is a `JsVal α`.
- A JS `Map<K, V>` is an association list `List (K × Option V)` with
  `none` standing for a stored `undefined` value, so that a key mapped to
  `undefined` is distinguishable from an absent key.
- A lazy pull-iterator driven to exhaustion is modelled by a recursive
  function from the remaining upstream list and the adapter's captured
  mutable state (index counter, done/skipped flag) to the pair
  (items yielded, upstream items left unconsumed).
-/

namespace MB

/-- Error kinds raised by the library: TypeError for non-integer indices,
RangeError for out-of-bounds inserts (index.ts lines 212, 227, 230). -/
inductive JsError : Type
  | typeError
  | rangeError
deriving DecidableEq

/-- A JS number argument as far as index checks observe it: an integer
with its value, or some non-integer number (Number.isInteger false). -/
inductive JsNum : Type
  | intVal (i : Int)
  | nonInt
deriving DecidableEq

/-- A JS value that may be the undefined sentinel, the null sentinel, or a
proper value. -/
inductive JsVal (α : Type) : Type
  | undef
  | jsnull
  | val (a : α)
deriving DecidableEq

/-- Array.prototype.removeIndex (index.ts lines 207-221): TypeError on a
non-integer index; Absent and no mutation when the integer index is out of
[0, length); otherwise removes and returns the element at the index. -/
def removeIndex (l : List α) (index : JsNum) : Except JsError (Option α × List α) :=
  match index with
  | .nonInt => .error .typeError
  | .intVal i =>
    if h : i < 0 ∨ (l.length : Int) ≤ i then .ok (none, l)
    else .ok (some (l.get ⟨i.toNat, by omega⟩), l.eraseIdx i.toNat)

/-- Array.prototype.insert (index.ts lines 222-236): TypeError on a
non-integer index, RangeError when the index is outside [0, length],
otherwise splices the value in at the index. -/
def insert (l : List α) (v : α) (index : JsNum) : Except JsError (List α) :=
  match index with
  | .nonInt => .error .typeError
  | .intVal i =>
    if (l.length : Int) < i ∨ i < 0 then .error .rangeError
    else .ok (l.insertIdx i.toNat v)

/-- Array.prototype.get (index.ts lines 269-277), with Object.get
(lines 158-160) inlined: on a dense array, Object.hasOwn holds exactly for
integer indices in [0, length), so the checked read returns Present of the
element there and Absent everywhere else.  No code path throws. -/
def arrayGet (l : List α) (index : JsNum) : Except JsError (Option α) :=
  .ok (match index with
    | .nonInt => none
    | .intVal i =>
      if h : 0 ≤ i ∧ i < (l.length : Int) then some (l.get ⟨i.toNat, by omega⟩)
      else none)

/-- Array.prototype.present (index.ts lines 253-260): filter keeping the
values that are not the undefined sentinel. -/
def present [DecidableEq α] (l : List (JsVal α)) : List (JsVal α) :=
  l.filter (fun v => decide (v ≠ JsVal.undef))

/-- Array.prototype.nonNullable (index.ts lines 261-268): the source
filters with (value !== undefined) only — it has no null check. -/
def nonNullable [DecidableEq α] (l : List (JsVal α)) : List (JsVal α) :=
  l.filter (fun v => decide (v ≠ JsVal.undef))

/-- Map.prototype.get: undefined when the key is absent, and the stored
value otherwise (which may itself be the stored-undefined `none`). -/
def mapGet [DecidableEq K] (m : List (K × Option V)) (k : K) : Option V :=
  match m.find? (fun e => e.1 = k) with
  | none => none
  | some e => e.2

/-- Map.prototype.set: replace the value under the key if present,
otherwise append the new entry. -/
def mapSet [DecidableEq K] : List (K × Option V) → K → Option V → List (K × Option V)
  | [], k, v => [(k, v)]
  | e :: rest, k, v => if e.1 = k then (k, v) :: rest else e :: mapSet rest k v

/-- Map.prototype.has: the key occurs in the map. -/
def mapHas [DecidableEq K] (m : List (K × Option V)) (k : K) : Bool :=
  m.any (fun e => e.1 = k)

/-- Outcome of a getOrSet call: the returned value, the map afterwards and
how many times the defaultValue producer was invoked. -/
structure GetOrSetResult (K V : Type) : Type where
  ret : V
  map : List (K × Option V)
  produceCalls : Nat
deriving DecidableEq

/-- Map.prototype.getOrSet (index.ts lines 171-183): reads this.get(key)
and tests the result against undefined; only when that read is undefined
does it invoke defaultValue, store and return the produced value. -/
def getOrSet [DecidableEq K] (m : List (K × Option V)) (k : K) (produce : V) :
    GetOrSetResult K V :=
  match mapGet m k with
  | some v => ⟨v, m, 0⟩
  | none => ⟨produce, mapSet m k (some produce), 1⟩

/-- Duplicate policy argument of insertOrdered. -/
inductive Dup : Type
  | low
  | high
deriving DecidableEq

/-- Modelled from the spec: bisectLow from the external @bodil/core/order
dependency — returns the leftmost valid insertion index for v in a list
sorted by cmp, i.e. the first position whose element is not below v. -/
def bisectLow (cmp : α → α → Ordering) (l : List α) (v : α) : Nat :=
  l.findIdx (fun e => cmp e v ≠ Ordering.lt)

/-- Modelled from the spec: bisectHigh from the external @bodil/core/order
dependency — returns the rightmost valid insertion index for v in a list
sorted by cmp, i.e. the first position whose element is above v. -/
def bisectHigh (cmp : α → α → Ordering) (l : List α) (v : α) : Nat :=
  l.findIdx (fun e => cmp e v = Ordering.gt)

/-- Array.prototype.insertOrdered (index.ts lines 237-252): picks
bisectLow for the "low" policy and bisectHigh otherwise, and delegates to
insert at the resulting index.  The omitted duplicates argument is `none`;
the source defaults it to "high". -/
def insertOrdered (l : List α) (v : α) (cmp : α → α → Ordering)
    (duplicates : Option Dup) : Except JsError (List α) :=
  insert l v (JsNum.intVal
    (((if duplicates.getD Dup.high = Dup.low then bisectLow cmp l v
       else bisectHigh cmp l v) : Nat) : Int))

/-- Iterator.prototype.partition (index.ts lines 357-384) driven to
exhaustion over a finite upstream list.  Each next() call accumulates
upstream items into a fresh buffer, yielding it as soon as it reaches
`size` items; on upstream exhaustion a non-empty buffer is yielded and an
empty one terminates the adapter.  With size = 0 the buffer never reaches
the size, so the single first call drains the whole upstream and yields it
as one group (when non-empty). -/
def partitionList (n : Nat) : List α → List (List α)
  | [] => []
  | x :: xs =>
    match n with
    | 0 => [x :: xs]
    | m + 1 => (x :: xs.take m) :: partitionList n (xs.drop m)
termination_by l => l.length
decreasing_by simp [List.length_drop]; omega

/-- Iterator.prototype.frontBiasedPartition (index.ts lines 386-404) for a
positive size: materializes the upstream, emits a first short group of
length (length mod size) when that is non-zero, then slices successive
groups of exactly `size` items — which is what partitionList produces on
the remaining, evenly divisible input. -/
def frontBiasedPartition (n : Nat) (l : List α) : List (List α) :=
  let firstLength := l.length % n
  if 0 < firstLength then l.take firstLength :: partitionList n (l.drop firstLength)
  else partitionList n l

/-- Iterator.prototype.takeWhile (index.ts lines 290-312) driven to
exhaustion: the captured state is the remaining upstream, the index
counter and the done flag.  Each next() with done unset pulls one upstream
item; exhaustion ends the run (without touching the flag, as in the
source), a passing item is yielded with the index bumped, and a failing
item sets done, leaving that rejected item consumed but unyielded.
Returns (items yielded, upstream left unconsumed). -/
def runTakeWhile (p : α → Nat → Bool) : List α → Nat → Bool → List α × List α
  | upstream, _, true => ([], upstream)
  | [], _, false => ([], [])
  | x :: xs, idx, false =>
    if p x idx then
      let r := runTakeWhile p xs (idx + 1) false
      (x :: r.1, r.2)
    else ([], xs)

/-- Iterator.prototype.skipWhile (index.ts lines 314-338) driven to
exhaustion: while the skipped flag is unset, upstream items satisfying the
predicate are discarded with the index bumped; the first failing item is
yielded and sets the flag, after which the adapter is transparent, so
driving it to exhaustion yields and consumes the entire remaining
upstream.  Returns (items yielded, upstream left unconsumed). -/
def runSkipWhile (p : α → Nat → Bool) : List α → Nat → Bool → List α × List α
  | upstream, _, true => (upstream, [])
  | [], _, false => ([], [])
  | x :: xs, idx, false =>
    if p x idx then runSkipWhile p xs (idx + 1) false
    else (x :: xs, [])

/-- Number of leading upstream items that skipWhile's predicate accepts
(and hence discards), starting from the given index counter value. -/
def skippedCount (p : α → Nat → Bool) : List α → Nat → Nat
  | [], _ => 0
  | x :: xs, i => if p x i then skippedCount p xs (i + 1) + 1 else 0

/-- Sortedness of a list under a three-way comparator: no earlier element
compares greater than a later one. -/
def Sorted (cmp : α → α → Ordering) (l : List α) : Prop :=
  List.Pairwise (fun a b => cmp a b ≠ Ordering.gt) l

instance instDecidableSorted (cmp : α → α → Ordering) [DecidableEq α] (l : List α) :
    Decidable (Sorted cmp l) :=
  inferInstanceAs (Decidable (List.Pairwise (fun a b => cmp a b ≠ Ordering.gt) l))

/-- Lawfulness of a caller-supplied comparator as a total order: swapping
the arguments swaps the verdict, and not-greater is transitive. -/
structure IsTotalOrderCmp (cmp : α → α → Ordering) : Prop where
  swap_eq : ∀ a b, cmp b a = (cmp a b).swap
  le_trans : ∀ a b c, cmp a b ≠ Ordering.gt → cmp b c ≠ Ordering.gt →
    cmp a c ≠ Ordering.gt

/-- The usual ascending comparator on naturals, used to instantiate the
ordered-insert theorems on concrete inputs. -/
def natCmp (a b : Nat) : Ordering :=
  if a < b then .lt else if a = b then .eq else .gt

/-- Claim C6 (amended): getOrSet skips the producer exactly when the key
currently maps to a value other than the undefined sentinel, and then
returns that stored value with the map unchanged; when the lookup reads
undefined — the key being absent or mapped to undefined — it invokes the
producer exactly once, stores the result and returns it. -/
theorem claimC6 [DecidableEq K] (m : List (K × Option V)) (k : K) (produce : V) :
    ((getOrSet m k produce).produceCalls = 0 ↔ ∃ v, mapGet m k = some v) ∧
    (∀ v, mapGet m k = some v → getOrSet m k produce = ⟨v, m, 0⟩) ∧
    (mapGet m k = none →
      getOrSet m k produce = ⟨produce, mapSet m k (some produce), 1⟩) := by
  refine ⟨?_, ?_, ?_⟩
  · cases h : mapGet m k with
    | none => simp [getOrSet, h]
    | some v => simp [getOrSet, h]
  · intro v hv
    simp [getOrSet, hv]
  · intro hn
    simp [getOrSet, hn]

/-- Claim C6, counterexample to the claim as stated: in a map where the
key 0 is present but stores the undefined sentinel, getOrSet does invoke
the producer. -/
theorem claimC6_cex :
    mapHas [((0 : Nat), (none : Option Nat))] 0 = true ∧
    (getOrSet [((0 : Nat), (none : Option Nat))] 0 (7 : Nat)).produceCalls = 1 ∧
    (1 : Nat) ≠ 0 := by decide

/-- Claim C6, the amended theorem evaluated at concrete maps: a key with a
present value skips the producer, a key storing undefined invokes it. -/
theorem claimC6_witness :
    (getOrSet [((0 : Nat), some (5 : Nat))] 0 (7 : Nat)).produceCalls = 0 ∧
    getOrSet [((1 : Nat), (none : Option Nat))] 1 (7 : Nat) = ⟨7, [(1, some 7)], 1⟩ :=
  ⟨(claimC6 [(0, some 5)] 0 7).1.mpr ⟨5, rfl⟩, (claimC6 [(1, none)] 1 7).2.2 rfl⟩

/-- Claim C7 (code bug): the claim and the source's own doc comment say
nonNullable removes null values as well, but the implementation filters
only the undefined sentinel, so a null element survives. -/
theorem claimC7 :
    nonNullable ([JsVal.jsnull] : List (JsVal Nat)) = [JsVal.jsnull] ∧
    (JsVal.jsnull : JsVal Nat) ≠ JsVal.undef := by decide

/-- Claim C8 (amended): for any out-of-range integer index, removeIndex
and get return Absent without raising; removeIndex raises TypeError on a
non-integer index, while get never raises at all and returns Absent for a
non-integer index. -/
theorem claimC8 (l : List α) (i : Int) (hrange : i < 0 ∨ (l.length : Int) ≤ i) :
    removeIndex l (JsNum.intVal i) = Except.ok (none, l) ∧
    arrayGet l (JsNum.intVal i) = Except.ok none ∧
    removeIndex l JsNum.nonInt = Except.error JsError.typeError ∧
    arrayGet l JsNum.nonInt = Except.ok none := by
  refine ⟨?_, ?_, rfl, rfl⟩
  · simp only [removeIndex]
    rw [dif_pos hrange]
  · simp only [arrayGet]
    rw [dif_neg (by omega)]

/-- Claim C8, counterexample to the claim as stated: get with a
non-integer index returns Absent successfully instead of raising the
invalid-argument error. -/
theorem claimC8_cex :
    arrayGet ([1, 2, 3] : List Nat) JsNum.nonInt = Except.ok none ∧
    arrayGet ([1, 2, 3] : List Nat) JsNum.nonInt ≠ Except.error JsError.typeError :=
  ⟨rfl, fun h => Except.noConfusion h⟩

/-- Claim C8, the amended theorem at the concrete array [4, 5, 6] and the
out-of-range index -1. -/
theorem claimC8_witness :
    removeIndex ([4, 5, 6] : List Nat) (JsNum.intVal (-1)) = Except.ok (none, [4, 5, 6]) ∧
    arrayGet ([4, 5, 6] : List Nat) (JsNum.intVal (-1)) = Except.ok none ∧
    removeIndex ([4, 5, 6] : List Nat) JsNum.nonInt = Except.error JsError.typeError ∧
    arrayGet ([4, 5, 6] : List Nat) JsNum.nonInt = Except.ok none :=
  claimC8 [4, 5, 6] (-1) (Or.inl (by decide))

/-- Claim C9: the checked indexed read is total — it never raises for any
index — and returns Present exactly at the assigned positions, i.e. for an
integer index inside [0, length) it returns that element and in every
other case it returns Absent. -/
theorem claimC9 (l : List α) (index : JsNum) :
    (∃ o, arrayGet l index = Except.ok o) ∧
    (∀ v : α, arrayGet l index = Except.ok (some v) ↔
      ∃ n : Nat, index = JsNum.intVal (n : Int) ∧
        ∃ h : n < l.length, l.get ⟨n, h⟩ = v) := by
  constructor
  · exact ⟨_, rfl⟩
  · intro v
    cases index with
    | nonInt =>
      constructor
      · intro hv
        exact absurd hv (by simp [arrayGet])
      · rintro ⟨n, hn, -⟩
        exact absurd hn (by simp)
    | intVal i =>
      constructor
      · intro hv
        by_cases h : 0 ≤ i ∧ i < (l.length : Int)
        · simp only [arrayGet] at hv
          rw [dif_pos h] at hv
          simp only [Except.ok.injEq, Option.some.injEq] at hv
          refine ⟨i.toNat, by congr 1; omega, by omega, hv⟩
        · simp only [arrayGet] at hv
          rw [dif_neg h] at hv
          exact absurd hv (by simp)
      · rintro ⟨n, hn, hlen, hv⟩
        injection hn with h'
        subst h'
        simp only [arrayGet]
        rw [dif_pos (by constructor <;> omega)]
        have hnat : ((n : Int)).toNat = n := by omega
        simp only [hnat]
        exact congrArg (fun o => Except.ok (some o)) hv

/-- Claim C10: present and nonNullable agree on every array — both return
the sublist of elements that are not the undefined sentinel, in order, so
a null element is kept by both. -/
theorem claimC10 [DecidableEq α] (l : List (JsVal α)) :
    present l = nonNullable l ∧
    (nonNullable l).Sublist l ∧
    (∀ v, v ∈ nonNullable l ↔ v ∈ l ∧ v ≠ JsVal.undef) := by
  refine ⟨rfl, List.filter_sublist l, ?_⟩
  intro v
  simp [nonNullable, List.mem_filter]

theorem partitionList_nil (n : Nat) : partitionList n ([] : List α) = [] := by
  simp [partitionList]

theorem partitionList_cons_zero (x : α) (xs : List α) :
    partitionList 0 (x :: xs) = [x :: xs] := by
  simp [partitionList]

theorem partitionList_cons_succ (m : Nat) (x : α) (xs : List α) :
    partitionList (m + 1) (x :: xs) =
      (x :: xs.take m) :: partitionList (m + 1) (xs.drop m) := by
  simp [partitionList]

theorem partitionList_flatten (n : Nat) (l : List α) :
    (partitionList n l).flatten = l := by
  suffices h : ∀ (N : Nat) (l : List α), l.length ≤ N → (partitionList n l).flatten = l by
    exact h l.length l le_rfl
  intro N
  induction N with
  | zero =>
    intro l hl
    cases l with
    | nil => simp [partitionList_nil]
    | cons x xs => simp at hl
  | succ N ih =>
    intro l hl
    cases l with
    | nil => simp [partitionList_nil]
    | cons x xs =>
      cases n with
      | zero => simp [partitionList_cons_zero]
      | succ m =>
        rw [partitionList_cons_succ]
        simp only [List.flatten_cons]
        rw [ih (xs.drop m) (by simp only [List.length_drop]; simp at hl; omega)]
        rw [List.cons_append, List.take_append_drop]

theorem partitionList_map_length (n : Nat) (hn : 0 < n) (l : List α) :
    (partitionList n l).map List.length =
      List.replicate (l.length / n) n ++
        (if l.length % n = 0 then [] else [l.length % n]) := by
  suffices h : ∀ (N : Nat) (l : List α), l.length ≤ N →
      (partitionList n l).map List.length =
        List.replicate (l.length / n) n ++
          (if l.length % n = 0 then [] else [l.length % n]) by
    exact h l.length l le_rfl
  intro N
  induction N with
  | zero =>
    intro l hl
    cases l with
    | nil => simp [partitionList_nil]
    | cons x xs => simp at hl
  | succ N ih =>
    intro l hl
    cases l with
    | nil => simp [partitionList_nil]
    | cons x xs =>
      obtain ⟨m, rfl⟩ : ∃ m, n = m + 1 := ⟨n - 1, by omega⟩
      rw [partitionList_cons_succ]
      simp only [List.map_cons]
      by_cases hcase : xs.length ≤ m
      · rw [List.drop_eq_nil_of_le hcase, List.take_of_length_le hcase,
          partitionList_nil]
        by_cases h2 : xs.length = m
        · subst h2
          simp only [List.length_cons, List.map_nil]
          rw [Nat.div_self (by omega), Nat.mod_self]
          simp [List.replicate]
        · have hlt : xs.length + 1 < m + 1 := by omega
          simp only [List.length_cons, List.map_nil]
          rw [Nat.div_eq_of_lt hlt, Nat.mod_eq_of_lt hlt]
          simp
      · have hxl : m < xs.length := by omega
        rw [ih (xs.drop m) (by simp only [List.length_drop]; simp at hl; omega)]
        have hlen1 : (x :: List.take m xs).length = m + 1 := by
          rw [List.length_cons, List.length_take, Nat.min_eq_left (by omega)]
        have hd : (x :: xs).length / (m + 1) =
            ((x :: xs).length - (m + 1)) / (m + 1) + 1 := by
          rw [Nat.div_eq]
          rw [if_pos ⟨by omega, by simp; omega⟩]
        have hm2 : (x :: xs).length % (m + 1) =
            ((x :: xs).length - (m + 1)) % (m + 1) := by
          conv => lhs; rw [Nat.mod_eq]
          rw [if_pos ⟨by omega, by simp; omega⟩]
        have hsub : (x :: xs).length - (m + 1) = xs.length - m := by
          simp only [List.length_cons]
          omega
        rw [hlen1, hd, hm2, hsub, List.length_drop, List.replicate_succ,
          List.cons_append]

theorem ceil_div_split (n q r : Nat) (hn : 0 < n) (hr : r < n) :
    (n * q + r + n - 1) / n = q + (if r = 0 then 0 else 1) := by
  by_cases h0 : r = 0
  · subst h0
    rw [if_pos rfl, Nat.add_zero, Nat.add_sub_assoc (by omega : 1 ≤ n),
      Nat.mul_add_div hn, Nat.div_eq_of_lt (by omega)]
  · have h1 : 1 ≤ r := by omega
    have hstep : n * q + r + n - 1 = n * (q + 1) + (r - 1) := by
      rw [Nat.mul_add, Nat.mul_one]
      omega
    rw [hstep, Nat.mul_add_div hn, Nat.div_eq_of_lt (by omega), if_neg h0]

theorem partitionList_length (n : Nat) (hn : 0 < n) (l : List α) :
    (partitionList n l).length = (l.length + n - 1) / n := by
  have h := congrArg List.length (partitionList_map_length n hn l)
  rw [List.length_map] at h
  have hdm := Nat.div_add_mod l.length n
  have hsplit := ceil_div_split n (l.length / n) (l.length % n) hn
    (Nat.mod_lt _ hn)
  have harg : n * (l.length / n) + l.length % n + n - 1 = l.length + n - 1 := by
    omega
  rw [harg] at hsplit
  rw [h, hsplit]
  by_cases hr : l.length % n = 0
  · simp [hr]
  · simp [hr]

/-- Claim C3: driving partition(iter, n) to exhaustion on an input of
length L yields ceil(L/n) groups (none when L = 0), every group but
possibly the last of length exactly n, none of them empty, and their
concatenation is the original input in order. -/
theorem claimC3 (n : Nat) (hn : 0 < n) (l : List α) :
    (partitionList n l).flatten = l ∧
    (partitionList n l).map List.length =
      List.replicate (l.length / n) n ++
        (if l.length % n = 0 then [] else [l.length % n]) ∧
    (partitionList n l).length = (l.length + n - 1) / n ∧
    (∀ g ∈ partitionList n l, g ≠ []) ∧
    (∀ g ∈ (partitionList n l).dropLast, g.length = n) := by
  refine ⟨partitionList_flatten n l, partitionList_map_length n hn l,
    partitionList_length n hn l, ?_, ?_⟩
  · intro g hg hg0
    have h0 : (0 : Nat) ∈ (partitionList n l).map List.length :=
      List.mem_map.mpr ⟨g, hg, by simp [hg0]⟩
    rw [partitionList_map_length n hn l] at h0
    rcases List.mem_append.mp h0 with h | h
    · exact absurd (List.eq_of_mem_replicate h) (by omega)
    · by_cases hr : l.length % n = 0
      · simp [hr] at h
      · simp [hr] at h
        omega
  · intro g hg
    have h1 : g.length ∈ ((partitionList n l).map List.length).dropLast := by
      rw [← List.map_dropLast]
      exact List.mem_map_of_mem List.length hg
    rw [partitionList_map_length n hn l] at h1
    by_cases hr : l.length % n = 0
    · rw [if_pos hr, List.append_nil] at h1
      exact List.eq_of_mem_replicate ((List.dropLast_sublist _).mem h1)
    · rw [if_neg hr, List.dropLast_concat] at h1
      exact List.eq_of_mem_replicate h1

/-- Claim C4: frontBiasedPartition returns groups whose concatenation is
the original input, whose length list is the short group (length L mod n,
omitted when the remainder is zero) first followed by full groups of n,
and whose multiset of group lengths is a permutation of partition's. -/
theorem claimC4 (n : Nat) (hn : 0 < n) (l : List α) :
    (frontBiasedPartition n l).flatten = l ∧
    (frontBiasedPartition n l).map List.length =
      (if l.length % n = 0 then [] else [l.length % n]) ++
        List.replicate (l.length / n) n ∧
    ((frontBiasedPartition n l).map List.length).Perm
      ((partitionList n l).map List.length) := by
  have hdm := Nat.div_add_mod l.length n
  by_cases hr : l.length % n = 0
  · have hfb : frontBiasedPartition n l = partitionList n l := by
      simp [frontBiasedPartition, hr]
    rw [hfb]
    refine ⟨partitionList_flatten n l, ?_, List.Perm.refl _⟩
    rw [partitionList_map_length n hn l]
    simp [hr]
  · have hkpos : 0 < l.length % n := by omega
    have hfb : frontBiasedPartition n l =
        l.take (l.length % n) :: partitionList n (l.drop (l.length % n)) := by
      simp [frontBiasedPartition, hkpos]
    have hkle : l.length % n ≤ l.length := Nat.mod_le _ _
    have heqmul : l.length - l.length % n = n * (l.length / n) := by omega
    have hdropmod : (l.length - l.length % n) % n = 0 := by
      rw [heqmul, Nat.mul_mod_right]
    have hdropdiv : (l.length - l.length % n) / n = l.length / n := by
      rw [heqmul, Nat.mul_div_cancel_left _ hn]
    have hmap : (frontBiasedPartition n l).map List.length =
        (if l.length % n = 0 then [] else [l.length % n]) ++
          List.replicate (l.length / n) n := by
      rw [hfb, if_neg hr]
      simp only [List.map_cons]
      rw [partitionList_map_length n hn (l.drop (l.length % n)),
        List.length_drop, hdropmod, hdropdiv,
        List.length_take, Nat.min_eq_left hkle]
      simp
    refine ⟨?_, hmap, ?_⟩
    · rw [hfb]
      simp only [List.flatten_cons]
      rw [partitionList_flatten n (l.drop (l.length % n)), List.take_append_drop]
    · rw [hmap, partitionList_map_length n hn l, if_neg hr]
      exact List.perm_append_comm

/-- Claim C3, instantiated at the concrete input [1, 2, 3] with group
size 2. -/
theorem claimC3_witness :
    0 < 2 ∧ (partitionList 2 ([1, 2, 3] : List Nat)).flatten = [1, 2, 3] :=
  ⟨by decide, (claimC3 2 (by decide) [1, 2, 3]).1⟩

/-- Claim C4, instantiated at the concrete input [1, 2, 3] with group
size 2. -/
theorem claimC4_witness :
    0 < 2 ∧ (frontBiasedPartition 2 ([1, 2, 3] : List Nat)).flatten = [1, 2, 3] :=
  ⟨by decide, (claimC4 2 (by decide) [1, 2, 3]).1⟩

theorem runTakeWhile_rem_le (p : α → Nat → Bool) :
    ∀ (l : List α) (i : Nat), (runTakeWhile p l i false).2.length ≤ l.length
  | [], _ => by simp [runTakeWhile]
  | x :: xs, i => by
    have hx := runTakeWhile_rem_le p xs (i + 1)
    by_cases h : p x i
    · simp only [runTakeWhile, h, if_true, List.length_cons]
      omega
    · simp [runTakeWhile, h]

theorem runTakeWhile_count [DecidableEq α] (p : α → Nat → Bool) :
    ∀ (l : List α) (i : Nat),
      l.length - (runTakeWhile p l i false).2.length =
        (runTakeWhile p l i false).1.length +
          (if (runTakeWhile p l i false).1 = l then 0 else 1)
  | [], i => by simp [runTakeWhile]
  | x :: xs, i => by
    have ihx := runTakeWhile_count p xs (i + 1)
    have hrem := runTakeWhile_rem_le p xs (i + 1)
    by_cases h : p x i
    · by_cases he : (runTakeWhile p xs (i + 1) false).1 = xs
      · rw [if_pos he] at ihx
        rw [he] at ihx
        simp [runTakeWhile, h, he]
        omega
      · rw [if_neg he] at ihx
        simp [runTakeWhile, h, he]
        omega
    · simp [runTakeWhile, h]

theorem runSkipWhile_eq (p : α → Nat → Bool) :
    ∀ (l : List α) (i : Nat),
      runSkipWhile p l i false = (l.drop (skippedCount p l i), [])
  | [], i => by simp [runSkipWhile, skippedCount]
  | x :: xs, i => by
    by_cases h : p x i
    · simp only [runSkipWhile, skippedCount, h, if_true]
      rw [runSkipWhile_eq p xs (i + 1), List.drop_succ_cons]
    · simp [runSkipWhile, skippedCount, h]

theorem skippedCount_le (p : α → Nat → Bool) :
    ∀ (l : List α) (i : Nat), skippedCount p l i ≤ l.length
  | [], _ => by simp [skippedCount]
  | x :: xs, i => by
    by_cases h : p x i
    · simp only [skippedCount, h, if_true, List.length_cons]
      exact Nat.succ_le_succ (skippedCount_le p xs (i + 1))
    · simp [skippedCount, h]

/-- Claim C5 (amended): driven to exhaustion, takeWhile consumes exactly
its yielded items plus one rejected item when it stopped on a predicate
failure (yielding a strict prefix) and nothing extra when upstream ran
out; skipWhile consumes its yielded items plus the items it skipped — the
accepted prefix — rather than exactly its yielded items. -/
theorem claimC5 [DecidableEq α] (p : α → Nat → Bool) (l : List α) :
    (l.length - (runTakeWhile p l 0 false).2.length =
      (runTakeWhile p l 0 false).1.length +
        (if (runTakeWhile p l 0 false).1 = l then 0 else 1)) ∧
    (runSkipWhile p l 0 false).1 = l.drop (skippedCount p l 0) ∧
    (runSkipWhile p l 0 false).2 = [] ∧
    l.length - (runSkipWhile p l 0 false).2.length =
      (runSkipWhile p l 0 false).1.length + skippedCount p l 0 := by
  have h1 := runTakeWhile_count p l 0
  have h2 := runSkipWhile_eq p l 0
  have h3 := skippedCount_le p l 0
  refine ⟨h1, ?_, ?_, ?_⟩
  · rw [h2]
  · rw [h2]
  · rw [h2]
    simp only [List.length_nil, Nat.sub_zero, List.length_drop]
    omega

/-- Claim C5, counterexample to the claim as stated: skipWhile over the
single-item upstream [0] with an always-true predicate consumes one item
and yields none, so consumed does not equal yielded. -/
theorem claimC5_cex :
    ([0] : List Nat).length -
        (runSkipWhile (fun _ _ => true) ([0] : List Nat) 0 false).2.length = 1 ∧
    (runSkipWhile (fun _ _ => true) ([0] : List Nat) 0 false).1.length = 0 ∧
    (1 : Nat) ≠ 0 := by decide

theorem natCmp_lawful : IsTotalOrderCmp natCmp := by
  constructor
  · intro a b
    simp only [natCmp]
    split_ifs <;> first | rfl | omega
  · intro a b c hab hbc
    simp only [natCmp] at hab hbc ⊢
    split_ifs at hab hbc ⊢ <;> first | omega | simp_all

theorem getElem_idx_congr {l : List α} {i j : Nat} (h : i = j)
    (hi : i < l.length) (hj : j < l.length) : l[i] = l[j] := by
  subst h
  rfl

theorem insert_nat_ok (l : List α) (v : α) (k : Nat) (hk : k ≤ l.length) :
    insert l v (JsNum.intVal (k : Int)) = Except.ok (l.insertIdx k v) := by
  simp only [insert]
  rw [if_neg (by omega)]
  have hnat : ((k : Int)).toNat = k := Int.toNat_natCast k
  rw [hnat]

theorem IsTotalOrderCmp.eq_symm {cmp : α → α → Ordering} (hc : IsTotalOrderCmp cmp)
    {a b : α} (h : cmp a b = Ordering.eq) : cmp b a = Ordering.eq := by
  rw [hc.swap_eq, h]
  rfl

theorem IsTotalOrderCmp.gt_of_lt {cmp : α → α → Ordering} (hc : IsTotalOrderCmp cmp)
    {a b : α} (h : cmp a b = Ordering.lt) : cmp b a = Ordering.gt := by
  rw [hc.swap_eq, h]
  rfl

theorem IsTotalOrderCmp.gt_of_gt_of_eq {cmp : α → α → Ordering}
    (hc : IsTotalOrderCmp cmp) {a b v : α} (hav : cmp a v = Ordering.gt)
    (hbv : cmp b v = Ordering.eq) : cmp a b = Ordering.gt := by
  by_contra hab
  have h1 : cmp b v ≠ Ordering.gt := by simp [hbv]
  exact hc.le_trans a b v hab h1 hav

theorem sorted_insertIdx_findIdx {cmp : α → α → Ordering} (hc : IsTotalOrderCmp cmp)
    (p : α → Bool) (v : α)
    (hfalse : ∀ e, p e = false → cmp e v ≠ Ordering.gt)
    (htrue : ∀ e, p e = true → cmp v e ≠ Ordering.gt) :
    ∀ l : List α, Sorted cmp l → Sorted cmp (l.insertIdx (l.findIdx p) v)
  | [], _ => by
    rw [List.findIdx_nil, List.insertIdx_zero]
    simp [Sorted]
  | a :: t, hs => by
    have hat := List.pairwise_cons.mp hs
    by_cases hpa : p a
    · rw [List.findIdx_cons, hpa, cond_true, List.insertIdx_zero]
      unfold Sorted
      rw [List.pairwise_cons]
      refine ⟨?_, hs⟩
      intro x hx
      rcases List.mem_cons.mp hx with rfl | hxt
      · exact htrue x hpa
      · exact hc.le_trans v a x (htrue a hpa) (hat.1 x hxt)
    · have hpa2 : p a = false := by simpa using hpa
      rw [List.findIdx_cons, hpa2, cond_false, List.insertIdx_succ_cons]
      unfold Sorted
      rw [List.pairwise_cons]
      constructor
      · intro x hx
        rcases (List.mem_insertIdx (List.findIdx_le_length p)).mp hx with rfl | hxt
        · exact hfalse a hpa2
        · exact hat.1 x hxt
      · exact sorted_insertIdx_findIdx hc p v hfalse htrue t hat.2

theorem bisectLow_le_length (cmp : α → α → Ordering) (l : List α) (v : α) :
    bisectLow cmp l v ≤ l.length :=
  List.findIdx_le_length _

theorem bisectHigh_le_length (cmp : α → α → Ordering) (l : List α) (v : α) :
    bisectHigh cmp l v ≤ l.length :=
  List.findIdx_le_length _

theorem bisectLow_sorted_insert {cmp : α → α → Ordering} (hc : IsTotalOrderCmp cmp)
    (l : List α) (v : α) (hs : Sorted cmp l) :
    Sorted cmp (l.insertIdx (bisectLow cmp l v) v) := by
  refine sorted_insertIdx_findIdx hc _ v ?_ ?_ l hs
  · intro e he
    have h1 : cmp e v = Ordering.lt := not_not.mp (of_decide_eq_false he)
    simp [h1]
  · intro e he
    have h1 : cmp e v ≠ Ordering.lt := of_decide_eq_true he
    rw [hc.swap_eq]
    rcases h3 : cmp e v with _ | _ | _
    · exact absurd h3 h1
    · simp [Ordering.swap]
    · simp [Ordering.swap]

theorem bisectHigh_sorted_insert {cmp : α → α → Ordering} (hc : IsTotalOrderCmp cmp)
    (l : List α) (v : α) (hs : Sorted cmp l) :
    Sorted cmp (l.insertIdx (bisectHigh cmp l v) v) := by
  refine sorted_insertIdx_findIdx hc _ v ?_ ?_ l hs
  · intro e he
    exact of_decide_eq_false he
  · intro e he
    have h1 : cmp e v = Ordering.gt := of_decide_eq_true he
    rw [hc.swap_eq, h1]
    simp [Ordering.swap]

/-- Claim C1: for a comparator that is a total order and a list sorted by
it, insertOrdered succeeds under either duplicate policy (and the omitted
policy) and the resulting list is still sorted. -/
theorem claimC1 {cmp : α → α → Ordering} (hc : IsTotalOrderCmp cmp)
    (l : List α) (v : α) (hs : Sorted cmp l) (duplicates : Option Dup) :
    ∃ l2, insertOrdered l v cmp duplicates = Except.ok l2 ∧ Sorted cmp l2 := by
  by_cases hd : duplicates.getD Dup.high = Dup.low
  · refine ⟨l.insertIdx (bisectLow cmp l v) v, ?_, bisectLow_sorted_insert hc l v hs⟩
    simp only [insertOrdered, hd, if_pos]
    exact insert_nat_ok l v _ (bisectLow_le_length cmp l v)
  · refine ⟨l.insertIdx (bisectHigh cmp l v) v, ?_, bisectHigh_sorted_insert hc l v hs⟩
    simp only [insertOrdered, hd, if_neg, if_false]
    exact insert_nat_ok l v _ (bisectHigh_le_length cmp l v)

/-- Claim C1, instantiated at the sorted array [1, 3, 5, 7, 9], the value
6 and the omitted duplicate policy. -/
theorem claimC1_witness :
    Sorted natCmp [1, 3, 5, 7, 9] ∧
    (∃ l2, insertOrdered [1, 3, 5, 7, 9] 6 natCmp none = Except.ok l2 ∧
      Sorted natCmp l2) :=
  ⟨by decide, claimC1 natCmp_lawful [1, 3, 5, 7, 9] 6 (by decide) none⟩

theorem bisectLow_lt_length {cmp : α → α → Ordering} {l : List α} {v : α}
    {i : Nat} (hi : i < l.length) (heq : cmp l[i] v = Ordering.eq) :
    bisectLow cmp l v < l.length := by
  apply List.findIdx_lt_length.mpr
  refine ⟨l[i], List.getElem_mem hi, ?_⟩
  simp [heq]

theorem bisectLow_before {cmp : α → α → Ordering} (l : List α) (v : α)
    (j : Nat) (hj : j < l.length) (hjlo : j < bisectLow cmp l v) :
    cmp l[j] v ≠ Ordering.eq := by
  have h1 := List.not_of_lt_findIdx hjlo
  have h2 : cmp l[j] v = Ordering.lt := not_not.mp (of_decide_eq_false h1)
  simp [h2]

theorem bisectLow_eq_at {cmp : α → α → Ordering} (hc : IsTotalOrderCmp cmp)
    {l : List α} (hs : Sorted cmp l) {v : α} {i : Nat} (hi : i < l.length)
    (heq : cmp l[i] v = Ordering.eq) :
    cmp (l.get ⟨bisectLow cmp l v, bisectLow_lt_length hi heq⟩) v = Ordering.eq := by
  have hlo := bisectLow_lt_length hi heq
  have hsget := List.pairwise_iff_getElem.mp hs
  have hp := @List.findIdx_getElem _ _ _ hlo
  have hne : cmp l[bisectLow cmp l v] v ≠ Ordering.lt := of_decide_eq_true hp
  have hloi : bisectLow cmp l v ≤ i := by
    by_contra hgt
    exact bisectLow_before l v i hi (by omega) heq
  rcases h3 : cmp l[bisectLow cmp l v] v with _ | _ | _
  · exact absurd h3 hne
  · rfl
  · exfalso
    rcases Nat.lt_or_ge (bisectLow cmp l v) i with hlt | hge
    · exact hsget _ _ hlo hi hlt (hc.gt_of_gt_of_eq h3 heq)
    · have hii : bisectLow cmp l v = i := by omega
      rw [getElem_idx_congr hii hlo hi] at h3
      rw [heq] at h3
      exact Ordering.noConfusion h3

theorem bisectHigh_pos {cmp : α → α → Ordering} (hc : IsTotalOrderCmp cmp)
    {l : List α} (hs : Sorted cmp l) {v : α} {i : Nat} (hi : i < l.length)
    (heq : cmp l[i] v = Ordering.eq) : 0 < bisectHigh cmp l v := by
  by_contra h0
  have hk : bisectHigh cmp l v = 0 := by omega
  have hlen : 0 < l.length := by omega
  have hklt : bisectHigh cmp l v < l.length := by omega
  have hp := @List.findIdx_getElem _ _ _ hklt
  have hgt : cmp l[bisectHigh cmp l v] v = Ordering.gt := of_decide_eq_true hp
  have hsget := List.pairwise_iff_getElem.mp hs
  rcases Nat.lt_or_ge (bisectHigh cmp l v) i with hlt | hge
  · exact hsget _ _ hklt hi hlt (hc.gt_of_gt_of_eq hgt heq)
  · have hii : bisectHigh cmp l v = i := by omega
    rw [getElem_idx_congr hii hklt hi] at hgt
    rw [heq] at hgt
    exact Ordering.noConfusion hgt

theorem bisectHigh_after {cmp : α → α → Ordering} (hc : IsTotalOrderCmp cmp)
    {l : List α} (hs : Sorted cmp l) (v : α)
    (j : Nat) (hj : j < l.length) (hjhi : bisectHigh cmp l v ≤ j) :
    cmp l[j] v ≠ Ordering.eq := by
  have hklt : bisectHigh cmp l v < l.length := by omega
  have hp := @List.findIdx_getElem _ _ _ hklt
  have hgt : cmp l[bisectHigh cmp l v] v = Ordering.gt := of_decide_eq_true hp
  have hsget := List.pairwise_iff_getElem.mp hs
  intro heqj
  rcases Nat.lt_or_ge (bisectHigh cmp l v) j with hlt | hge
  · exact hsget _ _ hklt hj hlt (hc.gt_of_gt_of_eq hgt heqj)
  · have hjj : bisectHigh cmp l v = j := by omega
    rw [getElem_idx_congr hjj hklt hj] at hgt
    rw [heqj] at hgt
    exact Ordering.noConfusion hgt

theorem bisectHigh_last_eq {cmp : α → α → Ordering} (hc : IsTotalOrderCmp cmp)
    {l : List α} (hs : Sorted cmp l) {v : α} {i : Nat} (hi : i < l.length)
    (heq : cmp l[i] v = Ordering.eq) :
    ∃ hhi : bisectHigh cmp l v - 1 < l.length,
      cmp (l.get ⟨bisectHigh cmp l v - 1, hhi⟩) v = Ordering.eq := by
  have hpos := bisectHigh_pos hc hs hi heq
  have hle := bisectHigh_le_length cmp l v
  have hhi : bisectHigh cmp l v - 1 < l.length := by omega
  refine ⟨hhi, ?_⟩
  have hnp := List.not_of_lt_findIdx
    (show bisectHigh cmp l v - 1 < bisectHigh cmp l v by omega)
  have hne : cmp l[bisectHigh cmp l v - 1] v ≠ Ordering.gt := of_decide_eq_false hnp
  have hsget := List.pairwise_iff_getElem.mp hs
  rcases h3 : cmp l[bisectHigh cmp l v - 1] v with _ | _ | _
  · exfalso
    rcases Nat.lt_or_ge i (bisectHigh cmp l v) with hlt | hge
    · rcases Nat.lt_or_ge i (bisectHigh cmp l v - 1) with hlt2 | hge2
      · have hle2 := hsget _ _ hi hhi hlt2
        have hvl : cmp v l[bisectHigh cmp l v - 1] = Ordering.gt :=
          hc.gt_of_lt h3
        have hvi : cmp v l[i] ≠ Ordering.gt := by
          simp [hc.eq_symm heq]
        exact hc.le_trans v l[i] (l[bisectHigh cmp l v - 1]) hvi hle2 hvl
      · have hii : i = bisectHigh cmp l v - 1 := by omega
        rw [getElem_idx_congr hii hi hhi] at heq
        rw [h3] at heq
        exact Ordering.noConfusion heq
    · exact bisectHigh_after hc hs v i hi hge heq
  · rfl
  · exact absurd h3 hne

/-- Claim C2: in a sorted array that already contains an element equal to
the value under the comparator, bisectLow is the index of the first such
equal element and the "low" policy inserts there (shifting the equals
right), bisectHigh is one past the index of the last equal element and the
"high" policy inserts there, and the omitted policy behaves as "high". -/
theorem claimC2 {cmp : α → α → Ordering} (hc : IsTotalOrderCmp cmp)
    (l : List α) (hs : Sorted cmp l) (v : α) (i : Nat) (hi : i < l.length)
    (heq : cmp l[i] v = Ordering.eq) :
    (∃ hlo : bisectLow cmp l v < l.length,
      cmp (l.get ⟨bisectLow cmp l v, hlo⟩) v = Ordering.eq) ∧
    (∀ j (hj : j < l.length), j < bisectLow cmp l v → cmp l[j] v ≠ Ordering.eq) ∧
    insertOrdered l v cmp (some Dup.low) =
      Except.ok (l.insertIdx (bisectLow cmp l v) v) ∧
    0 < bisectHigh cmp l v ∧
    (∃ hhi : bisectHigh cmp l v - 1 < l.length,
      cmp (l.get ⟨bisectHigh cmp l v - 1, hhi⟩) v = Ordering.eq) ∧
    (∀ j (hj : j < l.length), bisectHigh cmp l v ≤ j → cmp l[j] v ≠ Ordering.eq) ∧
    insertOrdered l v cmp none =
      Except.ok (l.insertIdx (bisectHigh cmp l v) v) ∧
    insertOrdered l v cmp none = insertOrdered l v cmp (some Dup.high) := by
  refine ⟨⟨bisectLow_lt_length hi heq, bisectLow_eq_at hc hs hi heq⟩,
    fun j hj hjlo => bisectLow_before l v j hj hjlo, ?_,
    bisectHigh_pos hc hs hi heq, bisectHigh_last_eq hc hs hi heq,
    fun j hj hjhi => bisectHigh_after hc hs v j hj hjhi, ?_, rfl⟩
  · simp only [insertOrdered, Option.getD_some, if_pos]
    exact insert_nat_ok l v _ (bisectLow_le_length cmp l v)
  · simp only [insertOrdered, Option.getD_none]
    rw [if_neg (by simp)]
    exact insert_nat_ok l v _ (bisectHigh_le_length cmp l v)

/-- Claim C2, instantiated at the sorted array [1, 3, 3, 5], which already
contains the inserted value 3 at index 1. -/
theorem claimC2_witness :
    Sorted natCmp [1, 3, 3, 5] ∧
    insertOrdered [1, 3, 3, 5] 3 natCmp (some Dup.low) =
      Except.ok (([1, 3, 3, 5] : List Nat).insertIdx (bisectLow natCmp [1, 3, 3, 5] 3) 3) :=
  ⟨by decide, (claimC2 natCmp_lawful [1, 3, 3, 5] (by decide) 3 1 (by decide)
    (by decide)).2.2.1⟩

end MB
